import Mathlib

/-!
Verification development for the Face_Attendance_App core:
detection post-processing, embedding normalization, identity matching,
temporal voting, and the attendance session state machine.

Floating-point numbers in the source are modelled as exact rationals (ℚ)
where the code only compares and adds scores, and as real numbers (ℝ)
where the code takes square roots (L2 normalization).  JavaScript `Date`
timestamps are modelled as integer milliseconds.
-/

namespace FaceAttendance

/-! ## Identity matcher (src/services/attendanceService.ts, `processMultiAttendance`)

The similarity function `cosineSimilarity` and the live-embedding
normalization `l2Normalize` are floating-point routines; the matcher is
parameterized by them (`cosSim`, `normLive`) so that its selection and
thresholding logic is embedded exactly while the numeric score production
stays abstract.  `cosineSimilarity` returns `number | null`, hence
`Option ℚ`. -/

/-- `const SIMILARITY_THRESHOLD = 0.82`. -/
def SIMILARITY_THRESHOLD : ℚ := 82 / 100

/-- `const MARGIN_THRESHOLD = 0.10`. -/
def MARGIN_THRESHOLD : ℚ := 10 / 100

/-- One row of the employee gallery.  `emp.embedding` may be a single
embedding or an array of embeddings in the source; the source wraps the
flat case into an array, so the model stores a list of templates. -/
structure Employee (α : Type) where
  emp_id : String
  name : String
  embedding : List α
deriving DecidableEq

/-- Result record pushed into `matchedResults`. -/
structure MatchResult where
  name : String
  id : String
  score : ℚ
  margin : ℚ
deriving DecidableEq

/-- Inner loop of `processMultiAttendance`: best score of the live
embedding against all stored embeddings of one employee, starting from
`let empBestScore = 0` and keeping `score` only when
`score !== null && score > empBestScore`. -/
def empBestScore {α : Type} (cosSim : α → α → Option ℚ) (normalizedLive : α)
    (storedEmbeddings : List α) : ℚ :=
  storedEmbeddings.foldl
    (fun acc storedEmb =>
      match cosSim normalizedLive storedEmb with
      | some score => if acc < score then score else acc
      | none => acc)
    0

/-- The mutable triple `bestScore` / `bestEmp` / `secondScore` of the
employee scan. -/
structure ScanState (α : Type) where
  bestScore : ℚ
  bestEmp : Option (Employee α)
  secondScore : ℚ

/-- One iteration of the `for (const emp of employees)` loop:
`if (empBestScore > bestScore) { second := best; best := emp }
else if (empBestScore > secondScore) { second := empBestScore }`. -/
def scanStep {α : Type} (cosSim : α → α → Option ℚ) (normalizedLive : α)
    (st : ScanState α) (emp : Employee α) : ScanState α :=
  let e := empBestScore cosSim normalizedLive emp.embedding
  if st.bestScore < e then
    { bestScore := e, bestEmp := some emp, secondScore := st.bestScore }
  else if st.secondScore < e then
    { st with secondScore := e }
  else st

/-- The whole employee scan, starting from `bestScore = 0`, `bestEmp = null`,
`secondScore = 0`. -/
def scanEmployees {α : Type} (cosSim : α → α → Option ℚ) (normalizedLive : α)
    (employees : List (Employee α)) : ScanState α :=
  employees.foldl (scanStep cosSim normalizedLive) ⟨0, none, 0⟩

/-- Decision for one live embedding: push a `MatchResult` exactly when
`bestEmp !== null && bestScore >= SIMILARITY_THRESHOLD && margin >= MARGIN_THRESHOLD`. -/
def matchOne {α : Type} (cosSim : α → α → Option ℚ)
    (employees : List (Employee α)) (normalizedLive : α) : Option MatchResult :=
  let st := scanEmployees cosSim normalizedLive employees
  let margin := st.bestScore - st.secondScore
  match st.bestEmp with
  | some emp =>
      if SIMILARITY_THRESHOLD ≤ st.bestScore ∧ MARGIN_THRESHOLD ≤ margin then
        some { name := emp.name, id := emp.emp_id, score := st.bestScore, margin := margin }
      else none
  | none => none

/-- `processMultiAttendance`: normalize each live embedding (skipping the
frame when `l2Normalize` fails), run the employee scan, collect accepted
matches.  Returns `[]` when the gallery or the embedding list is empty. -/
def processMultiAttendance {α : Type} (normLive : α → Option α)
    (cosSim : α → α → Option ℚ) (employees : List (Employee α))
    (embeddings : List α) : List MatchResult :=
  if employees.isEmpty || embeddings.isEmpty then []
  else
    embeddings.filterMap (fun faceEmbedding =>
      match normLive faceEmbedding with
      | some normalizedLive => matchOne cosSim employees normalizedLive
      | none => none)

/-- The `bestScore` produced by the scan is a running maximum of the
per-employee best scores, floored at the initial `0`. -/
def bestOver {α : Type} (cosSim : α → α → Option ℚ) (normalizedLive : α)
    (employees : List (Employee α)) : ℚ :=
  employees.foldl (fun acc emp => max acc (empBestScore cosSim normalizedLive emp.embedding)) 0

lemma scanStep_bestScore {α : Type} (cosSim : α → α → Option ℚ) (nl : α)
    (st : ScanState α) (emp : Employee α) :
    (scanStep cosSim nl st emp).bestScore
      = max st.bestScore (empBestScore cosSim nl emp.embedding) := by
  unfold scanStep
  by_cases h : st.bestScore < empBestScore cosSim nl emp.embedding
  · simp [h, max_eq_right (le_of_lt h)]
  · by_cases h2 : st.secondScore < empBestScore cosSim nl emp.embedding <;>
      simp [h, h2, max_eq_left (le_of_not_lt h)]

lemma scanEmployees_bestScore {α : Type} (cosSim : α → α → Option ℚ) (nl : α)
    (employees : List (Employee α)) :
    ∀ st : ScanState α,
      (employees.foldl (scanStep cosSim nl) st).bestScore
        = employees.foldl (fun acc emp => max acc (empBestScore cosSim nl emp.embedding))
            st.bestScore := by
  induction employees with
  | nil => intro st; rfl
  | cons emp rest ih =>
      intro st
      simp only [List.foldl_cons]
      rw [ih, scanStep_bestScore]

lemma matchOne_sound {α : Type} (cosSim : α → α → Option ℚ)
    (employees : List (Employee α)) (nl : α) (r : MatchResult)
    (h : matchOne cosSim employees nl = some r) :
    SIMILARITY_THRESHOLD ≤ r.score ∧ MARGIN_THRESHOLD ≤ r.margin ∧
      r.score = bestOver cosSim nl employees := by
  unfold matchOne at h
  rcases hbe : (scanEmployees cosSim nl employees).bestEmp with _ | emp <;>
    simp only [hbe] at h
  · exact absurd h (by simp)
  · by_cases hcond :
      SIMILARITY_THRESHOLD ≤ (scanEmployees cosSim nl employees).bestScore ∧
        MARGIN_THRESHOLD ≤
          (scanEmployees cosSim nl employees).bestScore -
            (scanEmployees cosSim nl employees).secondScore
    · rw [if_pos hcond] at h
      cases h
      refine ⟨hcond.1, hcond.2, ?_⟩
      show (scanEmployees cosSim nl employees).bestScore = _
      unfold bestOver scanEmployees
      exact scanEmployees_bestScore cosSim nl employees ⟨0, none, 0⟩
    · rw [if_neg hcond] at h
      exact absurd h (by simp)

/-- **C1.** `processMultiAttendance` reports a match only when the best
cosine-similarity score over some single employee's templates is at least
the similarity threshold 0.82 and the margin (best score minus the
second-best score of a different employee) is at least 0.10; a gallery
scoring `{A: 0.90, B: 0.50}` accepts A, while a gallery scoring
`{A: 0.90, B: 0.85}` (margin 0.05) is rejected as ambiguous. -/
theorem processMultiAttendance_threshold_margin :
    (∀ (α : Type) (normLive : α → Option α) (cosSim : α → α → Option ℚ)
        (employees : List (Employee α)) (embeddings : List α) (r : MatchResult),
        r ∈ processMultiAttendance normLive cosSim employees embeddings →
        SIMILARITY_THRESHOLD ≤ r.score ∧ MARGIN_THRESHOLD ≤ r.margin ∧
          ∃ fe ∈ embeddings, ∃ nl, normLive fe = some nl ∧
            r.score = bestOver cosSim nl employees) ∧
    processMultiAttendance (fun v => some v) (fun _ stored => some stored.headI)
        [⟨"a1", "A", [[9/10]]⟩, ⟨"b1", "B", [[1/2]]⟩] [[0]]
      = [⟨"A", "a1", 9/10, 2/5⟩] ∧
    processMultiAttendance (fun v => some v) (fun _ stored => some stored.headI)
        [⟨"a1", "A", [[9/10]]⟩, ⟨"b1", "B", [[17/20]]⟩] [[0]]
      = [] := by
  refine ⟨?_,
    by norm_num [processMultiAttendance, matchOne, scanEmployees, scanStep,
          empBestScore, SIMILARITY_THRESHOLD, MARGIN_THRESHOLD,
          List.filterMap_cons, List.filterMap_nil],
    by norm_num [processMultiAttendance, matchOne, scanEmployees, scanStep,
          empBestScore, SIMILARITY_THRESHOLD, MARGIN_THRESHOLD,
          List.filterMap_cons, List.filterMap_nil]⟩
  intro α normLive cosSim employees embeddings r hr
  unfold processMultiAttendance at hr
  by_cases he : (employees.isEmpty || embeddings.isEmpty) = true
  · rw [if_pos he] at hr
    exact absurd hr (by simp)
  · rw [if_neg he] at hr
    rcases List.mem_filterMap.mp hr with ⟨fe, hmem, hfe⟩
    rcases hnl : normLive fe with _ | nl
    · rw [hnl] at hfe; exact absurd hfe (by simp)
    · rw [hnl] at hfe
      have hs := matchOne_sound cosSim employees nl r hfe
      exact ⟨hs.1, hs.2.1, fe, hmem, nl, hnl, hs.2.2⟩

/-- Witness for C1: the concrete accepted match on the gallery
`{A: 0.90, B: 0.50}` satisfies both thresholds. -/
theorem processMultiAttendance_threshold_margin_witness :
    SIMILARITY_THRESHOLD ≤ (9/10 : ℚ) ∧ MARGIN_THRESHOLD ≤ (2/5 : ℚ) := by
  have h := processMultiAttendance_threshold_margin.1 (List ℚ) (fun v => some v)
      (fun _ stored => some stored.headI)
      [⟨"a1", "A", [[9/10]]⟩, ⟨"b1", "B", [[1/2]]⟩] [[0]] ⟨"A", "a1", 9/10, 2/5⟩
      (by rw [processMultiAttendance_threshold_margin.2.1]; exact List.mem_singleton.mpr rfl)
  exact ⟨h.1, h.2.1⟩

/-! ## Embedding pipeline (src/utils/normalizeEmbedding.ts and
src/utils/averageEmbedding.ts)

Floats are modelled as real numbers, so `Math.sqrt` is `Real.sqrt` and the
source's NaN/Infinity guards (`isFinite`) are vacuous: every `ℝ` is finite.
-/

/-- `v.reduce((s, x) => s + x * x, 0)` — the sum of squares under the norm. -/
def sumSq (v : List ℝ) : ℝ := v.foldl (fun s x => s + x * x) 0

/-- `const NORM_EPSILON = 1e-6`. -/
noncomputable def NORM_EPSILON : ℝ := 1 / 1000000

open scoped Classical in
/-- `l2Normalize` from src/utils/normalizeEmbedding.ts: reject an empty
vector, reject a near-zero norm, divide by the norm, and self-check that
the output's own norm is within `0.01` of `1.0`.  (The NaN/Infinity guard
of step 2 cannot fire in the real-number model.) -/
noncomputable def l2Normalize (v : List ℝ) : Option (List ℝ) :=
  if v.length = 0 then none
  else
    let norm := Real.sqrt (sumSq v)
    if norm < NORM_EPSILON then none
    else
      let normalized := v.map (fun x => x / norm)
      let checkNorm := Real.sqrt (sumSq normalized)
      if 1 / 100 < |checkNorm - 1| then none
      else some normalized

/-- `averageEmbedding` from src/utils/averageEmbedding.ts: reject an empty
batch, a zero-dimension batch, or any dimension mismatch; otherwise take
the element-wise mean and re-normalize it with `l2Normalize`.  (The
per-element `isFinite` rejection cannot fire in the real-number model.) -/
noncomputable def averageEmbedding (embeddings : List (List ℝ)) : Option (List ℝ) :=
  match embeddings with
  | [] => none
  | e0 :: rest =>
    let length := e0.length
    if length = 0 then none
    else if (e0 :: rest).any (fun emb => emb.length != length) then none
    else
      let sum := (e0 :: rest).foldl (fun acc emb => List.zipWith (fun a b => a + b) acc emb)
        (List.replicate length 0)
      let avg := sum.map (fun x => x / ((e0 :: rest).length : ℝ))
      l2Normalize avg

lemma sumSq_eq_sum (v : List ℝ) : sumSq v = (v.map (fun x => x * x)).sum := by
  suffices h : ∀ a : ℝ, v.foldl (fun s x => s + x * x) a = a + (v.map (fun x => x * x)).sum by
    simpa [sumSq] using h 0
  induction v with
  | nil => intro a; simp
  | cons x xs ih => intro a; simp [ih]; ring

lemma sumSq_nonneg (v : List ℝ) : 0 ≤ sumSq v := by
  rw [sumSq_eq_sum]
  apply List.sum_nonneg
  intro x hx
  rcases List.mem_map.mp hx with ⟨y, _, rfl⟩
  exact mul_self_nonneg y

lemma sumSq_map_div (v : List ℝ) (c : ℝ) :
    sumSq (v.map (fun x => x / c)) = sumSq v / c ^ 2 := by
  rw [sumSq_eq_sum, sumSq_eq_sum, List.map_map]
  induction v with
  | nil => simp
  | cons x xs ih =>
      simp only [List.map_cons, List.sum_cons, Function.comp]
      rw [ih]
      ring

/-- **C7.** For every vector on which `l2Normalize` succeeds, the result is
a fixed point of `l2Normalize` (idempotence) and its L2 norm lies in
`[0.99, 1.01]` (in the real-number model it is exactly `1`). -/
theorem l2Normalize_idempotent_unit_norm (v w : List ℝ)
    (h : l2Normalize v = some w) :
    l2Normalize w = some w ∧
      99 / 100 ≤ Real.sqrt (sumSq w) ∧ Real.sqrt (sumSq w) ≤ 101 / 100 := by
  classical
  simp only [l2Normalize] at h
  by_cases hlen : v.length = 0
  · rw [if_pos hlen] at h; exact absurd h (by simp)
  rw [if_neg hlen] at h
  by_cases hnorm : Real.sqrt (sumSq v) < NORM_EPSILON
  · rw [if_pos hnorm] at h; exact absurd h (by simp)
  rw [if_neg hnorm] at h
  by_cases hcheck :
      1 / 100 < |Real.sqrt (sumSq (v.map (fun x => x / Real.sqrt (sumSq v)))) - 1|
  · rw [if_pos hcheck] at h; exact absurd h (by simp)
  rw [if_neg hcheck] at h
  have hw : w = v.map (fun x => x / Real.sqrt (sumSq v)) := by
    cases h; rfl
  have heps : (0 : ℝ) < NORM_EPSILON := by
    unfold NORM_EPSILON; norm_num
  have hpos : 0 < Real.sqrt (sumSq v) := lt_of_lt_of_le heps (le_of_not_lt hnorm)
  have hsq : Real.sqrt (sumSq v) ^ 2 = sumSq v := Real.sq_sqrt (sumSq_nonneg v)
  have hsumw : sumSq w = 1 := by
    rw [hw, sumSq_map_div, hsq, div_self (ne_of_gt (hsq ▸ pow_pos hpos 2))]
  have hnormw : Real.sqrt (sumSq w) = 1 := by
    rw [hsumw, Real.sqrt_one]
  refine ⟨?_, by rw [hnormw]; norm_num, by rw [hnormw]; norm_num⟩
  have hlenw : w.length = v.length := by rw [hw, List.length_map]
  simp only [l2Normalize]
  rw [if_neg (by rw [hlenw]; exact hlen)]
  rw [hnormw]
  rw [if_neg (by unfold NORM_EPSILON; norm_num)]
  have hmapone : w.map (fun x => x / 1) = w := by
    simp
  rw [hmapone, hsumw, Real.sqrt_one]
  rw [if_neg (by norm_num)]

lemma l2Normalize_three_four :
    l2Normalize [(3 : ℝ), 4] = some [3 / 5, 4 / 5] := by
  classical
  have hs : sumSq [(3 : ℝ), 4] = 25 := by
    rw [sumSq_eq_sum]; norm_num
  have hsqrt : Real.sqrt (sumSq [(3 : ℝ), 4]) = 5 := by
    rw [hs, show (25 : ℝ) = 5 ^ 2 by norm_num, Real.sqrt_sq (by norm_num : (0:ℝ) ≤ 5)]
  have hmap : [(3 : ℝ), 4].map (fun x => x / Real.sqrt (sumSq [(3 : ℝ), 4]))
      = [3 / 5, 4 / 5] := by
    rw [hsqrt]; simp
  have hcheck : sumSq [(3 : ℝ) / 5, 4 / 5] = 1 := by
    rw [sumSq_eq_sum]; norm_num
  simp only [l2Normalize]
  rw [if_neg (by norm_num)]
  rw [if_neg (by rw [hsqrt]; unfold NORM_EPSILON; norm_num)]
  rw [hmap, hcheck, Real.sqrt_one]
  rw [if_neg (by norm_num)]

/-- Witness for C7: normalizing `[3, 4]` succeeds and yields `[3/5, 4/5]`,
which is itself a fixed point of `l2Normalize` with norm in `[0.99, 1.01]`. -/
theorem l2Normalize_idempotent_unit_norm_witness :
    l2Normalize [(3 : ℝ), 4] = some [3 / 5, 4 / 5] ∧
      l2Normalize [(3 : ℝ) / 5, 4 / 5] = some [3 / 5, 4 / 5] ∧
      99 / 100 ≤ Real.sqrt (sumSq [(3 : ℝ) / 5, 4 / 5]) ∧
      Real.sqrt (sumSq [(3 : ℝ) / 5, 4 / 5]) ≤ 101 / 100 := by
  have h := l2Normalize_idempotent_unit_norm [(3 : ℝ), 4] [3 / 5, 4 / 5]
    l2Normalize_three_four
  exact ⟨l2Normalize_three_four, h.1, h.2.1, h.2.2⟩

lemma zipWith_add_replicate_zero (v : List ℝ) :
    List.zipWith (fun a b => a + b) (List.replicate v.length (0 : ℝ)) v = v := by
  induction v with
  | nil => rfl
  | cons x xs ih => simp [List.replicate_succ, ih]

/-- **C10.** Averaging a single sample is the identity up to normalization:
`averageEmbedding [v] = l2Normalize v` for every vector `v`, and in
particular the call fails exactly when `l2Normalize v` fails. -/
theorem averageEmbedding_singleton (v : List ℝ) :
    averageEmbedding [v] = l2Normalize v := by
  classical
  by_cases hlen : v.length = 0
  · have hv : v = [] := List.length_eq_zero.mp hlen
    subst hv
    simp only [averageEmbedding, l2Normalize]
    norm_num
  · simp only [averageEmbedding]
    rw [if_neg hlen]
    have hany : ([v].any (fun emb => emb.length != v.length)) = false := by
      simp
    rw [if_neg (by rw [hany]; exact Bool.false_ne_true)]
    simp only [List.foldl_cons, List.foldl_nil, zipWith_add_replicate_zero,
      List.length_cons, List.length_nil]
    have : v.map (fun x => x / ((0 + 1 : ℕ) : ℝ)) = v := by
      simp
    rw [show ((0 : ℕ) + 1) = 1 from rfl]
    simp

/-! ## Attendance session state machine (src/database/attendanceRepo.ts)

The SQLite store is modelled as an explicit list of rows kept in
ascending-`id` insertion order, so `ORDER BY id DESC LIMIT 1` is the last
matching row.  Timestamps are integer epoch milliseconds (the source
stores an ISO string and parses it back; the row-shape guards and the
unparseable-`check_in` guard cannot fire in this model).  Each `db.execute`
call either succeeds or throws without changing the store; a `DBFaults`
oracle says which calls throw, and the `try/catch` of the source turns a
throw into the `error` result. -/

/-- One row of the `attendance` table. -/
structure Session where
  id : Nat
  emp_id : String
  name : String
  check_in : Int
  check_out : Option Int
  duration : Int
deriving DecidableEq

/-- The attendance store: rows in insertion order plus the auto-increment
counter. -/
structure AttendanceDB where
  rows : List Session
  nextId : Nat
deriving DecidableEq

/-- The four results of `markAttendance`. -/
inductive MarkResult
  | checkin
  | checkout
  | ignored
  | error
deriving DecidableEq

/-- Which of the three `db.execute` calls throw. -/
structure DBFaults where
  onSelect : Bool
  onUpdate : Bool
  onInsert : Bool
deriving DecidableEq

/-- A fault-free storage layer. -/
def noFaults : DBFaults := ⟨false, false, false⟩

/-- The `WHERE emp_id = ? AND check_out IS NULL` predicate. -/
def isOpenFor (empId : String) (r : Session) : Bool :=
  r.emp_id == empId && r.check_out.isNone

/-- `SELECT * FROM attendance WHERE emp_id = ? AND check_out IS NULL
ORDER BY id DESC LIMIT 1` — with rows in ascending-id order, the last
matching row. -/
def findOpenSession (db : AttendanceDB) (empId : String) : Option Session :=
  (db.rows.filter (isOpenFor empId)).getLast?

/-- `empId.trim() === ''`: a string trims to empty exactly when every
character is whitespace, which is how blankness is modelled (it keeps the
definition kernel-computable, unlike `String.trim`). -/
def isBlank (s : String) : Bool := s.data.all Char.isWhitespace

/-- `markAttendance` from src/database/attendanceRepo.ts: validate inputs,
look up an open session, then check in, ignore, or check out; every thrown
storage fault is caught and surfaced as `error`. -/
def markAttendance (f : DBFaults) (db : AttendanceDB) (empId name : String)
    (now : Int) : MarkResult × AttendanceDB :=
  if isBlank empId then (.error, db)
  else if isBlank name then (.error, db)
  else if f.onSelect then (.error, db)
  else
    match findOpenSession db empId with
    | some row =>
        let diffMs := now - row.check_in
        let diffMins := Int.fdiv diffMs 60000
        if diffMins < 5 then (.ignored, db)
        else if f.onUpdate then (.error, db)
        else
          let durationSeconds := Int.fdiv diffMs 1000
          (.checkout,
            { db with rows := db.rows.map (fun r =>
                if r.id = row.id then
                  { r with check_out := some now, duration := durationSeconds }
                else r) })
    | none =>
        if f.onInsert then (.error, db)
        else
          (.checkin,
            { rows := db.rows ++
                [{ id := db.nextId, emp_id := empId, name := name, check_in := now, check_out := none, duration := 0 }],
              nextId := db.nextId + 1 })

/-- `Math.floor(diffMs / 60000) < 5` is exactly `diffMs < 300000`. -/
lemma diffMins_lt_five_iff (d : Int) : Int.fdiv d 60000 < 5 ↔ d < 300000 := by
  rw [Int.fdiv_eq_ediv _ (by norm_num)]
  rw [Int.ediv_lt_iff_lt_mul (by norm_num)]
  norm_num

/-- **C2.** `markAttendance` (with a fault-free store and valid inputs) is
the two-state session machine: no open session → check-in with
`check_in = now`, `duration = 0`; open session younger than 5 minutes →
ignored with the store untouched; open session at least 5 minutes old →
check-out setting `check_out = now` and `duration` to the elapsed time in
seconds. -/
theorem markAttendance_two_state_machine (db : AttendanceDB)
    (empId name : String) (now : Int)
    (hid : isBlank empId = false) (hname : isBlank name = false) :
    (findOpenSession db empId = none →
      markAttendance noFaults db empId name now =
        (.checkin,
          ⟨db.rows ++ [⟨db.nextId, empId, name, now, none, 0⟩], db.nextId + 1⟩)) ∧
    (∀ row, findOpenSession db empId = some row →
      (now - row.check_in < 5 * 60000 →
        markAttendance noFaults db empId name now = (.ignored, db)) ∧
      (5 * 60000 ≤ now - row.check_in →
        markAttendance noFaults db empId name now =
          (.checkout,
            ⟨db.rows.map (fun r =>
              if r.id = row.id then
                { r with check_out := some now,
                         duration := Int.fdiv (now - row.check_in) 1000 }
              else r), db.nextId⟩))) := by
  have hid' : ¬ (isBlank empId = true) := by rw [hid]; exact Bool.false_ne_true
  have hname' : ¬ (isBlank name = true) := by rw [hname]; exact Bool.false_ne_true
  have hsel : ¬ (noFaults.onSelect = true) := by simp [noFaults]
  have hupd : ¬ (noFaults.onUpdate = true) := by simp [noFaults]
  have hins : ¬ (noFaults.onInsert = true) := by simp [noFaults]
  refine ⟨?_, ?_⟩
  · intro hnone
    unfold markAttendance
    rw [if_neg hid', if_neg hname', if_neg hsel, hnone]
    dsimp only
    rw [if_neg hins]
  · intro row hrow
    refine ⟨?_, ?_⟩
    · intro hlt
      unfold markAttendance
      rw [if_neg hid', if_neg hname', if_neg hsel, hrow]
      dsimp only
      rw [if_pos ((diffMins_lt_five_iff (now - row.check_in)).mpr (by linarith))]
    · intro hge
      unfold markAttendance
      rw [if_neg hid', if_neg hname', if_neg hsel, hrow]
      dsimp only
      rw [if_neg (by rw [diffMins_lt_five_iff]; omega), if_neg hupd]

/-- Witness for C2: on an empty store, employee E1 checks in at time 0;
a second attempt 4 minutes later is ignored; an attempt 6 minutes after
check-in checks out with duration 360 seconds. -/
theorem markAttendance_two_state_machine_witness :
    markAttendance noFaults ⟨[], 0⟩ "E1" "Alice" 0 =
      (.checkin, ⟨[⟨0, "E1", "Alice", 0, none, 0⟩], 1⟩) ∧
    markAttendance noFaults ⟨[⟨0, "E1", "Alice", 0, none, 0⟩], 1⟩ "E1" "Alice" 240000 =
      (.ignored, ⟨[⟨0, "E1", "Alice", 0, none, 0⟩], 1⟩) ∧
    markAttendance noFaults ⟨[⟨0, "E1", "Alice", 0, none, 0⟩], 1⟩ "E1" "Alice" 360000 =
      (.checkout, ⟨[⟨0, "E1", "Alice", 0, some 360000, 360⟩], 1⟩) := by
  have h1 := markAttendance_two_state_machine ⟨[], 0⟩ "E1" "Alice" 0
    (by decide) (by decide)
  have h2 := markAttendance_two_state_machine ⟨[⟨0, "E1", "Alice", 0, none, 0⟩], 1⟩
    "E1" "Alice" 240000 (by decide) (by decide)
  have h3 := markAttendance_two_state_machine ⟨[⟨0, "E1", "Alice", 0, none, 0⟩], 1⟩
    "E1" "Alice" 360000 (by decide) (by decide)
  refine ⟨h1.1 rfl, ?_, ?_⟩
  · exact (h2.2 ⟨0, "E1", "Alice", 0, none, 0⟩ rfl).1 (by norm_num)
  · have hc := (h3.2 ⟨0, "E1", "Alice", 0, none, 0⟩ rfl).2 (by norm_num)
    rw [hc]
    norm_num
    rfl

/-- Number of open (`check_out IS NULL`) sessions an employee has. -/
def openCount (db : AttendanceDB) (e : String) : Nat :=
  (db.rows.filter (isOpenFor e)).length

lemma getLast?_eq_none_nil {α : Type} {l : List α} (h : l.getLast? = none) :
    l = [] := by
  cases l with
  | nil => rfl
  | cons a t =>
      exfalso
      have hs : (a :: t).getLast?.isSome = true :=
        List.getLast?_isSome.mpr (by simp)
      rw [h] at hs
      simp at hs

lemma length_filter_map_le {α : Type} (g : α → α) (p : α → Bool)
    (h : ∀ r, p (g r) = true → p r = true) (l : List α) :
    ((l.map g).filter p).length ≤ (l.filter p).length := by
  induction l with
  | nil => simp
  | cons r t ih =>
      simp only [List.map_cons, List.filter_cons]
      by_cases hp : p (g r) = true
      · rw [if_pos hp, if_pos (h r hp)]
        simpa using ih
      · rw [if_neg hp]
        by_cases hq : p r = true
        · rw [if_pos hq]
          exact le_trans ih (Nat.le_succ _)
        · rw [if_neg hq]
          exact ih

/-- **C3.** Every invocation of `markAttendance` preserves, for every
employee, the invariant that at most one open session exists: a row is
inserted only when the store reports no open session for that employee,
and otherwise the call either closes the open session or leaves the store
unchanged. -/
theorem markAttendance_at_most_one_open (f : DBFaults) (db : AttendanceDB)
    (empId name : String) (now : Int) (e : String)
    (h : openCount db e ≤ 1) :
    openCount (markAttendance f db empId name now).2 e ≤ 1 := by
  unfold markAttendance
  by_cases h1 : isBlank empId = true
  · rw [if_pos h1]; exact h
  rw [if_neg h1]
  by_cases h2 : isBlank name = true
  · rw [if_pos h2]; exact h
  rw [if_neg h2]
  by_cases h3 : f.onSelect = true
  · rw [if_pos h3]; exact h
  rw [if_neg h3]
  cases hf : findOpenSession db empId with
  | some row =>
      dsimp only
      by_cases h4 : Int.fdiv (now - row.check_in) 60000 < 5
      · rw [if_pos h4]; exact h
      rw [if_neg h4]
      by_cases h5 : f.onUpdate = true
      · rw [if_pos h5]; exact h
      rw [if_neg h5]
      refine le_trans ?_ h
      unfold openCount
      dsimp only
      apply length_filter_map_le
      intro r hr
      by_cases hid : r.id = row.id
      · rw [if_pos hid] at hr
        exfalso
        unfold isOpenFor at hr
        simp at hr
      · rw [if_neg hid] at hr
        exact hr
  | none =>
      dsimp only
      by_cases h6 : f.onInsert = true
      · rw [if_pos h6]; exact h
      rw [if_neg h6]
      unfold openCount
      dsimp only
      rw [List.filter_append]
      have hemp : db.rows.filter (isOpenFor empId) = [] :=
        getLast?_eq_none_nil hf
      by_cases he : e = empId
      · subst he
        rw [hemp]
        simp [isOpenFor]
      · have hnew : isOpenFor e ⟨db.nextId, empId, name, now, none, 0⟩ = false := by
          unfold isOpenFor
          simp only [Option.isNone_none, Bool.and_true]
          exact beq_eq_false_iff_ne.mpr (fun hc => he hc.symm)
        simp only [List.filter_cons, hnew, List.filter_nil]
        simpa using h

/-- Witness for C3: starting from the empty store (zero open sessions for
E1), the invariant still holds after the check-in the call performs. -/
theorem markAttendance_at_most_one_open_witness :
    openCount ⟨[], 0⟩ "E1" ≤ 1 ∧
      openCount (markAttendance noFaults ⟨[], 0⟩ "E1" "Alice" 0).2 "E1" ≤ 1 :=
  ⟨by decide,
    markAttendance_at_most_one_open noFaults ⟨[], 0⟩ "E1" "Alice" 0 "E1" (by decide)⟩

/-- **C4.** `markAttendance` is total (it never throws in the model):
blank identifier or name yields the `error` result with the store
untouched; a fault on any of the three storage calls that the invocation
reaches yields the `error` result; and in every case in which `error` is
returned, the store is unchanged. -/
theorem markAttendance_error_handling (f : DBFaults) (db : AttendanceDB)
    (empId name : String) (now : Int) :
    ((isBlank empId = true ∨ isBlank name = true) →
        markAttendance f db empId name now = (.error, db)) ∧
    (isBlank empId = false → isBlank name = false → f.onSelect = true →
        markAttendance f db empId name now = (.error, db)) ∧
    (isBlank empId = false → isBlank name = false → f.onSelect = false →
        (findOpenSession db empId = none → f.onInsert = true →
            markAttendance f db empId name now = (.error, db)) ∧
        (∀ row, findOpenSession db empId = some row →
            5 * 60000 ≤ now - row.check_in → f.onUpdate = true →
            markAttendance f db empId name now = (.error, db))) ∧
    ((markAttendance f db empId name now).1 = .error →
        (markAttendance f db empId name now).2 = db) := by
  refine ⟨?_, ?_, ?_, ?_⟩
  · intro hb
    unfold markAttendance
    rcases hb with hb | hb
    · rw [if_pos hb]
    · by_cases h1 : isBlank empId = true
      · rw [if_pos h1]
      · rw [if_neg h1, if_pos hb]
  · intro h1 h2 h3
    unfold markAttendance
    rw [if_neg (by rw [h1]; exact Bool.false_ne_true),
        if_neg (by rw [h2]; exact Bool.false_ne_true), if_pos h3]
  · intro h1 h2 h3
    constructor
    · intro hnone hins
      unfold markAttendance
      rw [if_neg (by rw [h1]; exact Bool.false_ne_true),
          if_neg (by rw [h2]; exact Bool.false_ne_true),
          if_neg (by rw [h3]; exact Bool.false_ne_true), hnone]
      dsimp only
      rw [if_pos hins]
    · intro row hrow hge hupd
      unfold markAttendance
      rw [if_neg (by rw [h1]; exact Bool.false_ne_true),
          if_neg (by rw [h2]; exact Bool.false_ne_true),
          if_neg (by rw [h3]; exact Bool.false_ne_true), hrow]
      dsimp only
      rw [if_neg (by rw [diffMins_lt_five_iff]; omega), if_pos hupd]
  · unfold markAttendance
    by_cases h1 : isBlank empId = true
    · rw [if_pos h1]; intro _; rfl
    rw [if_neg h1]
    by_cases h2 : isBlank name = true
    · rw [if_pos h2]; intro _; rfl
    rw [if_neg h2]
    by_cases h3 : f.onSelect = true
    · rw [if_pos h3]; intro _; rfl
    rw [if_neg h3]
    cases hf : findOpenSession db empId with
    | some row =>
        dsimp only
        by_cases h4 : Int.fdiv (now - row.check_in) 60000 < 5
        · rw [if_pos h4]; intro hr; exact absurd hr (by simp)
        rw [if_neg h4]
        by_cases h5 : f.onUpdate = true
        · rw [if_pos h5]; intro _; rfl
        · rw [if_neg h5]; intro hr; exact absurd hr (by simp)
    | none =>
        dsimp only
        by_cases h6 : f.onInsert = true
        · rw [if_pos h6]; intro _; rfl
        · rw [if_neg h6]; intro hr; exact absurd hr (by simp)

/-- Witness for C4: a blank employee id is rejected with the store
untouched, and a select-time storage fault on valid inputs is also
surfaced as `error` with the store untouched. -/
theorem markAttendance_error_handling_witness :
    markAttendance noFaults ⟨[], 0⟩ " " "Alice" 0 = (.error, ⟨[], 0⟩) ∧
    markAttendance ⟨true, false, false⟩ ⟨[], 0⟩ "E1" "Alice" 0 =
      (.error, ⟨[], 0⟩) :=
  ⟨(markAttendance_error_handling noFaults ⟨[], 0⟩ " " "Alice" 0).1
      (Or.inl (by decide)),
    (markAttendance_error_handling ⟨true, false, false⟩ ⟨[], 0⟩ "E1" "Alice" 0).2.1
      (by decide) (by decide) rfl⟩

/-! ## Temporal voting engine (src/screens/CameraScreen.tsx,
`captureAndProcess`)

One scan cycle, from the point where the matcher results for the current
frame are known: push this cycle's vote into the 5-slot sliding buffer,
tally votes per name, and either confirm an identity, confirm "unknown",
or stay silent.  UI state (popups, bounding boxes) and the
`markAttendance` call guarded by the 2-second per-identity debounce are
external effects; the model keeps the `recentScans` debounce map itself.
`Date.now()` is the `now` argument in milliseconds. -/

/-- A recognized identity as pushed into `recognitionBuffer`. -/
structure Ident where
  name : String
  id : String
deriving DecidableEq

/-- One slot of `recognitionBuffer`: an identity or the `'unknown'`
sentinel (modelled as `none`). -/
abbrev Vote := Option Ident

/-- The refs `recognitionBuffer`, `lastRecognizedUser`,
`lastRecognizedTime`, `nullStreak`, `recentScans` of `CameraScreen`. -/
structure RecognitionState where
  buffer : List Vote
  lastRecognizedUser : Option String
  lastRecognizedTime : Int
  nullStreak : Nat
  recentScans : List (String × Int)
deriving DecidableEq

/-- Observable decision of one cycle. -/
inductive StepEvent
  | confirmed (u : Ident)
  | unknownConfirmed
  | silent
deriving DecidableEq

/-- `const UNKNOWN_STREAK_THRESHOLD = 5`. -/
def UNKNOWN_STREAK_THRESHOLD : Nat := 5

/-- `const PROTECTION_WINDOW = 6000`. -/
def PROTECTION_WINDOW : Int := 6000

/-- `matches.length > 0 ? matches[0] : 'unknown'`. -/
def voteOf (matchList : List Ident) : Vote :=
  match matchList with
  | [] => none
  | m :: _ => some m

/-- `recognitionBuffer.current.push(vote); if (length > 5) shift()`. -/
def pushVote (buffer : List Vote) (v : Vote) : List Vote :=
  let pushed := buffer ++ [v]
  if 5 < pushed.length then pushed.tail else pushed

/-- `userCounts.set(item.name, { id: item.id, count: (existing?.count || 0) + 1 })`
on a JS `Map`, which keeps insertion order and updates in place. -/
def upsertVote (counts : List (String × String × Nat)) (u : Ident) :
    List (String × String × Nat) :=
  match counts with
  | [] => [(u.name, u.id, 1)]
  | (n, i, c) :: rest =>
      if n = u.name then (n, u.id, c + 1) :: rest
      else (n, i, c) :: upsertVote rest u

/-- The `buf.forEach` tally of non-unknown votes per name. -/
def tallyVotes (buf : List Vote) : List (String × String × Nat) :=
  buf.foldl
    (fun counts v =>
      match v with
      | some u => upsertVote counts u
      | none => counts) []

/-- `recentScans.current.get(name) || 0`. -/
def lookupScan (m : List (String × Int)) (n : String) : Int :=
  match m.find? (fun p => p.1 == n) with
  | some p => p.2
  | none => 0

/-- `recentScans.current.set(name, now)` on a JS `Map`. -/
def setScan (m : List (String × Int)) (n : String) (t : Int) :
    List (String × Int) :=
  match m with
  | [] => [(n, t)]
  | (k, v) :: rest => if k = n then (k, t) :: rest else (k, v) :: setScan rest n t

/-- One voting cycle of `captureAndProcess`, starting at the
`recognitionBuffer.current.push` line. -/
def stepCycle (s : RecognitionState) (matchList : List Ident) (now : Int) :
    StepEvent × RecognitionState :=
  let buf := pushVote s.buffer (voteOf matchList)
  let counts := tallyVotes buf
  let confirmedUser := counts.find? (fun e => decide (3 ≤ e.2.2))
  let inProtectionWindow := now - s.lastRecognizedTime < PROTECTION_WINDOW
  match confirmedUser with
  | some (n, i, _) =>
      let lastScanTime := lookupScan s.recentScans n
      let recents :=
        if 2000 < now - lastScanTime then setScan s.recentScans n now
        else s.recentScans
      (StepEvent.confirmed ⟨n, i⟩,
        { buffer := [], lastRecognizedUser := some n, lastRecognizedTime := now,
          nullStreak := 0, recentScans := recents })
  | none =>
      let lastFrameUnknown := 0 < buf.length ∧ buf.getLast? = some (none : Vote)
      let nullStreakNext := if lastFrameUnknown then s.nullStreak + 1 else s.nullStreak
      if ¬ inProtectionWindow ∧ UNKNOWN_STREAK_THRESHOLD ≤ nullStreakNext then
        (StepEvent.unknownConfirmed, { s with buffer := [], nullStreak := 0 })
      else
        (StepEvent.silent, { s with buffer := buf, nullStreak := nullStreakNext })

/-- Number of votes for name `n` in the buffer. -/
def countName (buf : List Vote) (n : String) : Nat :=
  (buf.filter (fun v =>
    match v with
    | some u => u.name == n
    | none => false)).length

/-- Name carried by a `confirmed` event. -/
def eventName (e : StepEvent) : Option String :=
  match e with
  | .confirmed u => some u.name
  | _ => none

/-- Count stored in a tally for a given name (`0` when absent). -/
def lookupCount (counts : List (String × String × Nat)) (n : String) : Nat :=
  match counts.find? (fun e => e.1 == n) with
  | some e => e.2.2
  | none => 0

lemma upsertVote_nil (u : Ident) : upsertVote [] u = [(u.name, u.id, 1)] := rfl

lemma upsertVote_cons (k i : String) (c : Nat)
    (rest : List (String × String × Nat)) (u : Ident) :
    upsertVote ((k, i, c) :: rest) u =
      if k = u.name then (k, u.id, c + 1) :: rest
      else (k, i, c) :: upsertVote rest u := rfl

lemma lookupCount_nil (n : String) : lookupCount [] n = 0 := rfl

lemma lookupCount_cons (k i : String) (c : Nat)
    (rest : List (String × String × Nat)) (n : String) :
    lookupCount ((k, i, c) :: rest) n =
      if k = n then c else lookupCount rest n := by
  unfold lookupCount
  by_cases h : k = n
  · rw [List.find?_cons_of_pos _ (by simp [h]), if_pos h]
  · rw [List.find?_cons_of_neg _ (by simp [h]), if_neg h]

lemma countName_nil (n : String) : countName [] n = 0 := rfl

lemma countName_cons_none (rest : List Vote) (n : String) :
    countName ((none : Vote) :: rest) n = countName rest n := by
  simp [countName, List.filter_cons]

lemma countName_cons_some (u : Ident) (rest : List Vote) (n : String) :
    countName (some u :: rest) n =
      countName rest n + (if u.name = n then 1 else 0) := by
  by_cases h : u.name = n
  · simp [countName, List.filter_cons, h]
  · simp [countName, List.filter_cons, h]

lemma lookupCount_upsert (counts : List (String × String × Nat)) (u : Ident)
    (n : String) :
    lookupCount (upsertVote counts u) n =
      if u.name = n then lookupCount counts n + 1 else lookupCount counts n := by
  induction counts with
  | nil =>
      rw [upsertVote_nil, lookupCount_cons, lookupCount_nil]
  | cons e rest ih =>
      obtain ⟨k, i, c⟩ := e
      rw [upsertVote_cons]
      by_cases hk : k = u.name
      · rw [if_pos hk, lookupCount_cons, lookupCount_cons]
        by_cases hn : k = n
        · rw [if_pos hn, if_pos hn, if_pos (hk.symm.trans hn)]
        · rw [if_neg hn, if_neg hn]
          have hun : ¬ u.name = n := fun h => hn (hk.trans h)
          rw [if_neg hun]
      · rw [if_neg hk, lookupCount_cons, lookupCount_cons]
        by_cases hn : k = n
        · rw [if_pos hn, if_pos hn]
          have hun : ¬ u.name = n := fun h => hk (hn.trans h.symm)
          rw [if_neg hun]
        · rw [if_neg hn, if_neg hn, ih]

lemma lookupCount_tallyVotes_aux (buf : List Vote) (n : String) :
    ∀ acc : List (String × String × Nat),
      lookupCount
          (buf.foldl
            (fun counts v =>
              match v with
              | some u => upsertVote counts u
              | none => counts) acc) n
        = lookupCount acc n + countName buf n := by
  induction buf with
  | nil => intro acc; rw [List.foldl_nil, countName_nil]; omega
  | cons v rest ih =>
      intro acc
      cases v with
      | none =>
          rw [List.foldl_cons, countName_cons_none]
          exact ih acc
      | some u =>
          rw [List.foldl_cons]
          have h1 := ih (upsertVote acc u)
          rw [countName_cons_some]
          by_cases h : u.name = n
          · rw [if_pos h]
            rw [show (List.foldl (fun counts v =>
                match v with
                | some u => upsertVote counts u
                | none => counts) (upsertVote acc u) rest) =
              (rest.foldl (fun counts v =>
                match v with
                | some u => upsertVote counts u
                | none => counts) (upsertVote acc u)) from rfl]
            rw [h1, lookupCount_upsert, if_pos h]
            omega
          · rw [if_neg h, h1, lookupCount_upsert, if_neg h]
            omega

lemma lookupCount_tallyVotes (buf : List Vote) (n : String) :
    lookupCount (tallyVotes buf) n = countName buf n := by
  have h := lookupCount_tallyVotes_aux buf n []
  rw [lookupCount_nil] at h
  simpa [tallyVotes] using h

/-- The name column of a tally. -/
def tallyKeys (counts : List (String × String × Nat)) : List String :=
  counts.map (fun e => e.1)

lemma tallyKeys_cons (k i : String) (c : Nat)
    (rest : List (String × String × Nat)) :
    tallyKeys ((k, i, c) :: rest) = k :: tallyKeys rest := rfl

lemma tallyKeys_upsert_mem (counts : List (String × String × Nat)) (u : Ident)
    (k : String) (h : k ∈ tallyKeys (upsertVote counts u)) :
    k ∈ tallyKeys counts ∨ k = u.name := by
  induction counts with
  | nil =>
      rw [upsertVote_nil, tallyKeys_cons] at h
      rcases List.mem_cons.mp h with h | h
      · exact Or.inr h
      · simp [tallyKeys] at h
  | cons e rest ih =>
      obtain ⟨m, i, c⟩ := e
      rw [upsertVote_cons] at h
      by_cases hm : m = u.name
      · rw [if_pos hm, tallyKeys_cons] at h
        rw [tallyKeys_cons]
        rcases List.mem_cons.mp h with h | h
        · exact Or.inl (List.mem_cons.mpr (Or.inl h))
        · exact Or.inl (List.mem_cons.mpr (Or.inr h))
      · rw [if_neg hm, tallyKeys_cons] at h
        rw [tallyKeys_cons]
        rcases List.mem_cons.mp h with h | h
        · exact Or.inl (List.mem_cons.mpr (Or.inl h))
        · rcases ih h with h2 | h2
          · exact Or.inl (List.mem_cons.mpr (Or.inr h2))
          · exact Or.inr h2

lemma tallyKeys_upsert_nodup (counts : List (String × String × Nat)) (u : Ident)
    (h : (tallyKeys counts).Nodup) : (tallyKeys (upsertVote counts u)).Nodup := by
  induction counts with
  | nil =>
      rw [upsertVote_nil, tallyKeys_cons]
      simp [tallyKeys]
  | cons e rest ih =>
      obtain ⟨m, i, c⟩ := e
      rw [tallyKeys_cons, List.nodup_cons] at h
      rw [upsertVote_cons]
      by_cases hm : m = u.name
      · rw [if_pos hm, tallyKeys_cons, List.nodup_cons]
        exact h
      · rw [if_neg hm, tallyKeys_cons, List.nodup_cons]
        refine ⟨?_, ih h.2⟩
        intro hmem
        rcases tallyKeys_upsert_mem rest u m hmem with h2 | h2
        · exact h.1 h2
        · exact hm h2

lemma tallyVotes_keys_nodup (buf : List Vote) :
    (tallyKeys (tallyVotes buf)).Nodup := by
  suffices h : ∀ acc : List (String × String × Nat), (tallyKeys acc).Nodup →
      (tallyKeys (buf.foldl
        (fun counts v =>
          match v with
          | some u => upsertVote counts u
          | none => counts) acc)).Nodup by
    exact h [] (by simp [tallyKeys])
  induction buf with
  | nil => intro acc hacc; exact hacc
  | cons v rest ih =>
      intro acc hacc
      cases v with
      | none => exact ih acc hacc
      | some u => exact ih (upsertVote acc u) (tallyKeys_upsert_nodup acc u hacc)

lemma lookupCount_of_mem (counts : List (String × String × Nat))
    (n i : String) (c : Nat) (hnd : (tallyKeys counts).Nodup)
    (hm : (n, i, c) ∈ counts) : lookupCount counts n = c := by
  induction counts with
  | nil => simp at hm
  | cons e rest ih =>
      obtain ⟨k, j, d⟩ := e
      rw [tallyKeys_cons, List.nodup_cons] at hnd
      rw [lookupCount_cons]
      rcases List.mem_cons.mp hm with h | h
      · injection h with ha hb
        injection hb with hb hc
        subst ha
        subst hc
        rw [if_pos rfl]
      · have hk : ¬ k = n := by
          intro hkn
          subst hkn
          exact hnd.1 (List.mem_map.mpr ⟨(k, i, c), h, rfl⟩)
        rw [if_neg hk]
        exact ih hnd.2 h

lemma countName_pair_le (buf : List Vote) (n m : String) (h : n ≠ m) :
    countName buf n + countName buf m ≤ buf.length := by
  induction buf with
  | nil => rw [countName_nil, countName_nil]; simp
  | cons v rest ih =>
      rw [List.length_cons]
      cases v with
      | none =>
          rw [countName_cons_none, countName_cons_none]
          omega
      | some u =>
          rw [countName_cons_some, countName_cons_some]
          by_cases hun : u.name = n
          · have hum : ¬ u.name = m := fun h2 => h (hun.symm.trans h2)
            rw [if_pos hun, if_neg hum]
            omega
          · rw [if_neg hun]
            by_cases hum : u.name = m
            · rw [if_pos hum]
              omega
            · rw [if_neg hum]
              omega

lemma pushVote_length_le (buffer : List Vote) (v : Vote)
    (h : buffer.length ≤ 5) : (pushVote buffer v).length ≤ 5 := by
  unfold pushVote
  by_cases hc : 5 < (buffer ++ [v]).length
  · rw [if_pos hc]
    simp only [List.length_tail, List.length_append, List.length_singleton]
    omega
  · rw [if_neg hc]
    simp only [List.length_append, List.length_singleton] at hc ⊢
    omega

/-- **C5.** Whenever, after pushing the current cycle's vote, some identity
holds at least 3 of the at most 5 votes in the sliding buffer, the cycle
confirms that identity: the event carries its name, it is recorded as the
last confirmed identity at the current time, the consecutive-unknown
counter is reset to 0, and the voting buffer is cleared. -/
theorem stepCycle_confirms_majority (s : RecognitionState)
    (matchList : List Ident) (now : Int) (n : String)
    (hlen : s.buffer.length ≤ 5)
    (hcount : 3 ≤ countName (pushVote s.buffer (voteOf matchList)) n) :
    eventName (stepCycle s matchList now).1 = some n ∧
      (stepCycle s matchList now).2.lastRecognizedUser = some n ∧
      (stepCycle s matchList now).2.lastRecognizedTime = now ∧
      (stepCycle s matchList now).2.nullStreak = 0 ∧
      (stepCycle s matchList now).2.buffer = [] := by
  have hbuflen : (pushVote s.buffer (voteOf matchList)).length ≤ 5 :=
    pushVote_length_le _ _ hlen
  have hlk := lookupCount_tallyVotes (pushVote s.buffer (voteOf matchList)) n
  have hnodup := tallyVotes_keys_nodup (pushVote s.buffer (voteOf matchList))
  rcases hkey : (tallyVotes (pushVote s.buffer (voteOf matchList))).find?
      (fun e => e.1 == n) with _ | e
  · exfalso
    have h0 : lookupCount (tallyVotes (pushVote s.buffer (voteOf matchList))) n = 0 := by
      unfold lookupCount
      rw [hkey]
    omega
  · have hmem := List.mem_of_find?_eq_some hkey
    have hex : ∃ x ∈ tallyVotes (pushVote s.buffer (voteOf matchList)),
        (fun e => decide (3 ≤ e.2.2)) x = true := by
      refine ⟨e, hmem, ?_⟩
      have hce : lookupCount (tallyVotes (pushVote s.buffer (voteOf matchList))) n
          = e.2.2 := by
        unfold lookupCount
        rw [hkey]
      simp only [decide_eq_true_eq]
      omega
    obtain ⟨w, hfind⟩ := Option.isSome_iff_exists.mp (List.find?_isSome.mpr hex)
    have hwmem := List.mem_of_find?_eq_some hfind
    have hwpred := List.find?_some hfind
    obtain ⟨m, j, c⟩ := w
    have hc3 : 3 ≤ c := by simpa using hwpred
    have hcm : countName (pushVote s.buffer (voteOf matchList)) m = c := by
      have h1 := lookupCount_of_mem _ m j c hnodup hwmem
      rw [lookupCount_tallyVotes] at h1
      exact h1
    have hmn : m = n := by
      by_contra hne
      have hle := countName_pair_le (pushVote s.buffer (voteOf matchList)) n m
        (fun h => hne h.symm)
      omega
    subst hmn
    simp only [stepCycle]
    rw [hfind]
    exact ⟨rfl, rfl, rfl, rfl, rfl⟩

/-- Witness for C5: with two votes for A already buffered, a third A vote
confirms A this cycle (the spec's `[A, A, A]` prefix of
`[A, A, A, unknown, A]`). -/
theorem stepCycle_confirms_majority_witness :
    eventName (stepCycle ⟨[some ⟨"A", "a1"⟩, some ⟨"A", "a1"⟩],
        none, 0, 0, []⟩ [⟨"A", "a1"⟩] 100).1 = some "A" ∧
      (stepCycle ⟨[some ⟨"A", "a1"⟩, some ⟨"A", "a1"⟩],
        none, 0, 0, []⟩ [⟨"A", "a1"⟩] 100).2.lastRecognizedUser = some "A" ∧
      (stepCycle ⟨[some ⟨"A", "a1"⟩, some ⟨"A", "a1"⟩],
        none, 0, 0, []⟩ [⟨"A", "a1"⟩] 100).2.lastRecognizedTime = 100 ∧
      (stepCycle ⟨[some ⟨"A", "a1"⟩, some ⟨"A", "a1"⟩],
        none, 0, 0, []⟩ [⟨"A", "a1"⟩] 100).2.nullStreak = 0 ∧
      (stepCycle ⟨[some ⟨"A", "a1"⟩, some ⟨"A", "a1"⟩],
        none, 0, 0, []⟩ [⟨"A", "a1"⟩] 100).2.buffer = [] :=
  stepCycle_confirms_majority
    ⟨[some ⟨"A", "a1"⟩, some ⟨"A", "a1"⟩], none, 0, 0, []⟩
    [⟨"A", "a1"⟩] 100 "A" (by decide) (by decide)

lemma tallyVotes_no_majority_iff (buf : List Vote) :
    (tallyVotes buf).find? (fun e => decide (3 ≤ e.2.2)) = none ↔
      ∀ m : String, countName buf m < 3 := by
  rw [List.find?_eq_none]
  constructor
  · intro h m
    rcases hkey : (tallyVotes buf).find? (fun e => e.1 == m) with _ | e
    · have h0 : lookupCount (tallyVotes buf) m = 0 := by
        unfold lookupCount
        rw [hkey]
      have h1 := lookupCount_tallyVotes buf m
      omega
    · have hmem := List.mem_of_find?_eq_some hkey
      have hp := h e hmem
      have hce : lookupCount (tallyVotes buf) m = e.2.2 := by
        unfold lookupCount
        rw [hkey]
      have h1 := lookupCount_tallyVotes buf m
      simp only [decide_eq_true_eq] at hp
      omega
  · intro h e hmem
    obtain ⟨m, j, c⟩ := e
    have hc := lookupCount_of_mem _ m j c (tallyVotes_keys_nodup buf) hmem
    rw [lookupCount_tallyVotes] at hc
    have h2 := h m
    simp only [decide_eq_true_eq]
    omega

/-- **C6.** A confirmed "unknown/unregistered" event is emitted in a cycle
exactly when no identity reaches 3 votes in the pushed buffer, the
consecutive-unknown streak (incremented only when the most recent vote is
the unknown sentinel) has reached 5, and the engine is not inside the
6-second protection window; on emission the buffer is cleared and the
streak reset to 0 — and in every other non-confirming cycle no unknown
event is emitted. -/
theorem stepCycle_unknown_event_iff (s : RecognitionState)
    (matchList : List Ident) (now : Int) :
    ((stepCycle s matchList now).1 = StepEvent.unknownConfirmed ↔
      ((∀ m : String, countName (pushVote s.buffer (voteOf matchList)) m < 3) ∧
        ¬ (now - s.lastRecognizedTime < PROTECTION_WINDOW) ∧
        UNKNOWN_STREAK_THRESHOLD ≤
          (if 0 < (pushVote s.buffer (voteOf matchList)).length ∧
              (pushVote s.buffer (voteOf matchList)).getLast? = some (none : Vote)
            then s.nullStreak + 1 else s.nullStreak))) ∧
    ((stepCycle s matchList now).1 = StepEvent.unknownConfirmed →
      (stepCycle s matchList now).2.buffer = [] ∧
        (stepCycle s matchList now).2.nullStreak = 0) := by
  rcases hfind : (tallyVotes (pushVote s.buffer (voteOf matchList))).find?
      (fun e => decide (3 ≤ e.2.2)) with _ | w
  · have hmaj := (tallyVotes_no_majority_iff _).mp hfind
    simp only [stepCycle]
    rw [hfind]
    by_cases hcond : ¬ (now - s.lastRecognizedTime < PROTECTION_WINDOW) ∧
        UNKNOWN_STREAK_THRESHOLD ≤
          (if 0 < (pushVote s.buffer (voteOf matchList)).length ∧
              (pushVote s.buffer (voteOf matchList)).getLast? = some (none : Vote)
            then s.nullStreak + 1 else s.nullStreak)
    · rw [if_pos hcond]
      exact ⟨⟨fun _ => ⟨hmaj, hcond.1, hcond.2⟩, fun _ => rfl⟩,
        fun _ => ⟨rfl, rfl⟩⟩
    · rw [if_neg hcond]
      refine ⟨⟨fun h => ?_, fun h => absurd ⟨h.2.1, h.2.2⟩ hcond⟩, fun h => ?_⟩
      · cases h
      · cases h
  · have hwmem := List.mem_of_find?_eq_some hfind
    have hwpred := List.find?_some hfind
    obtain ⟨m, j, c⟩ := w
    have hc3 : 3 ≤ c := by simpa using hwpred
    have hcm : countName (pushVote s.buffer (voteOf matchList)) m = c := by
      have h1 := lookupCount_of_mem _ m j c (tallyVotes_keys_nodup _) hwmem
      rw [lookupCount_tallyVotes] at h1
      exact h1
    simp only [stepCycle]
    rw [hfind]
    refine ⟨⟨fun h => ?_, fun h => ?_⟩, fun h => ?_⟩
    · cases h
    · exfalso
      have h2 := h.1 m
      omega
    · cases h

/-- Witness for C6: after four prior unknown votes (streak 4), a fifth
unknown vote outside the protection window emits the confirmed-unknown
event, clearing the buffer and resetting the streak. -/
theorem stepCycle_unknown_event_iff_witness :
    (stepCycle ⟨[none, none, none, none], none, 0, 4, []⟩ [] 10000).1
        = StepEvent.unknownConfirmed ∧
      (stepCycle ⟨[none, none, none, none], none, 0, 4, []⟩ [] 10000).2.buffer = [] ∧
      (stepCycle ⟨[none, none, none, none], none, 0, 4, []⟩ [] 10000).2.nullStreak = 0 := by
  have h := stepCycle_unknown_event_iff
    ⟨[none, none, none, none], none, 0, 4, []⟩ [] 10000
  have hmaj : ∀ m : String,
      countName (pushVote [none, none, none, none] (voteOf ([] : List Ident))) m < 3 := by
    intro m
    show countName [none, none, none, none, none] m < 3
    rw [countName_cons_none, countName_cons_none, countName_cons_none,
      countName_cons_none, countName_cons_none, countName_nil]
    omega
  have he := h.1.mpr ⟨hmaj, by decide, by decide⟩
  exact ⟨he, (h.2 he).1, (h.2 he).2⟩

/-! ## Detection postprocessor
(android/.../facedetection/FaceDetectionModule.java)

Java `float` arithmetic is modelled as exact rationals and `int` as `Int`.
`Collections.sort` is a stable sort; it is modelled by stable insertion
sort (`sortStable`), which keeps the relative order of elements the
comparator considers equal, exactly as the Java library guarantees. -/

/-- The Java helper class `FaceResult`. -/
structure FaceResult where
  x : Int
  y : Int
  w : Int
  h : Int
  conf : ℚ
deriving DecidableEq

/-- `int area() { return w * h; }`. -/
def FaceResult.area (f : FaceResult) : Int := f.w * f.h

/-- `private float iou(FaceResult a, FaceResult b)`. -/
def iou (a b : FaceResult) : ℚ :=
  let x1 := max a.x b.x
  let y1 := max a.y b.y
  let x2 := min (a.x + a.w) (b.x + b.w)
  let y2 := min (a.y + a.h) (b.y + b.h)
  let interW := max 0 (x2 - x1)
  let interH := max 0 (y2 - y1)
  let interArea : ℚ := ((interW * interH : Int) : ℚ)
  let unionArea : ℚ := ((a.area + b.area : Int) : ℚ) - interArea
  interArea / unionArea

/-- Stable insertion: place `x` before the first element it strictly
precedes, after every element the comparator ties it with. -/
def insertStable (lt : FaceResult → FaceResult → Bool) (x : FaceResult) :
    List FaceResult → List FaceResult
  | [] => [x]
  | y :: ys => if lt x y then x :: y :: ys else y :: insertStable lt x ys

/-- Stable sort by the strict precedence test `lt` (models Java's stable
`Collections.sort`). -/
def sortStable (lt : FaceResult → FaceResult → Bool)
    (l : List FaceResult) : List FaceResult :=
  l.foldl (fun acc x => insertStable lt x acc) []

/-- `(a, b) -> Float.compare(b.conf, a.conf)`: `a` strictly precedes `b`
when `a.conf > b.conf`. -/
def confLt (a b : FaceResult) : Bool := decide (b.conf < a.conf)

/-- `(a, b) -> Integer.compare(b.area(), a.area())`: `a` strictly precedes
`b` when `a.area > b.area`. -/
def areaLt (a b : FaceResult) : Bool := decide (b.area < a.area)

/-- The greedy suppression loop of `nms`: take the highest-confidence
remaining box, emit it, and keep only boxes whose IoU with it is below the
threshold. -/
def nmsLoop (iouThreshold : ℚ) : List FaceResult → List FaceResult
  | [] => []
  | best :: rest =>
      best :: nmsLoop iouThreshold
        (rest.filter (fun f => decide (iou best f < iouThreshold)))
termination_by l => l.length
decreasing_by
  simp only [List.length_cons]
  exact Nat.lt_succ_of_le (List.length_filter_le _ _)

/-- `private List<FaceResult> nms(List<FaceResult> faces, float iouThreshold)`:
sort by confidence descending, then run the greedy loop. -/
def nms (faces : List FaceResult) (iouThreshold : ℚ) : List FaceResult :=
  nmsLoop iouThreshold (sortStable confLt faces)

/-- One raw detector box `[cx, cy, w, h, confidence]`, normalized 0–1. -/
structure RawBox where
  cx : ℚ
  cy : ℚ
  w : ℚ
  h : ℚ
  conf : ℚ
deriving DecidableEq

/-- The letterbox transform used to fit the image into the square model
input. -/
structure LetterboxResult where
  scale : ℚ
  padX : ℚ
  padY : ℚ
deriving DecidableEq

/-- `private static final int INPUT_SIZE = 960`. -/
def INPUT_SIZE : ℚ := 960

/-- `private static final float CONF_THRESHOLD = 0.25f`. -/
def CONF_THRESHOLD : ℚ := 25 / 100

/-- `private static final int MIN_BOX_SIZE = 80`. -/
def MIN_BOX_SIZE : Int := 80

/-- The IoU threshold `0.45f` passed to `nms` by `parseOutput`. -/
def NMS_IOU_THRESHOLD : ℚ := 45 / 100

/-- Java `Math.round` on a float: `floor(x + 0.5)`. -/
def jround (q : ℚ) : Int := ⌊q + 1 / 2⌋

/-- The per-box body of `parseOutput`'s first loop: confidence filter,
letterbox back-mapping, rounding, minimum-size check, clamping to image
bounds. -/
def parseBox (origW origH : Int) (lb : LetterboxResult) (rb : RawBox) :
    Option FaceResult :=
  if rb.conf < CONF_THRESHOLD then none
  else
    let cx := rb.cx * INPUT_SIZE
    let cy := rb.cy * INPUT_SIZE
    let w := rb.w * INPUT_SIZE
    let h := rb.h * INPUT_SIZE
    let x := (cx - w / 2 - lb.padX) / lb.scale
    let y := (cy - h / 2 - lb.padY) / lb.scale
    let width := w / lb.scale
    let height := h / lb.scale
    let ix := max 0 (jround x)
    let iy := max 0 (jround y)
    let iw := jround width
    let ih := jround height
    if iw < MIN_BOX_SIZE ∨ ih < MIN_BOX_SIZE then none
    else
      let iw2 := if origW < ix + iw then origW - ix else iw
      let ih2 := if origH < iy + ih then origH - iy else ih
      if iw2 ≤ 0 ∨ ih2 ≤ 0 then none
      else some ⟨ix, iy, iw2, ih2, rb.conf⟩

/-- `parseOutput`: collect valid faces, suppress duplicates with NMS at
IoU 0.45, then sort the result by area descending. -/
def parseOutput (raw : List RawBox) (origW origH : Int)
    (lb : LetterboxResult) : List FaceResult :=
  let validFaces := raw.filterMap (parseBox origW origH lb)
  sortStable areaLt (nms validFaces NMS_IOU_THRESHOLD)

/-- **C8.** Greedy NMS at IoU threshold 0.45 on a pair of candidate boxes
(in either input order, with the pair's confidences distinct): if their
IoU is at least the threshold only the higher-confidence box survives,
and if their IoU is below the threshold both boxes survive. -/
theorem nms_pair (a b : FaceResult) (hc : b.conf < a.conf)
    (l : List FaceResult) (hl : l = [a, b] ∨ l = [b, a]) :
    (NMS_IOU_THRESHOLD ≤ iou a b → nms l NMS_IOU_THRESHOLD = [a]) ∧
    (iou a b < NMS_IOU_THRESHOLD → nms l NMS_IOU_THRESHOLD = [a, b]) := by
  have hsort : sortStable confLt l = [a, b] := by
    rcases hl with rfl | rfl
    · have h1 : confLt b a = false := by
        unfold confLt
        exact decide_eq_false_iff_not.mpr (lt_asymm hc)
      simp [sortStable, insertStable, h1]
    · have h2 : confLt a b = true := by
        unfold confLt
        exact decide_eq_true hc
      simp [sortStable, insertStable, h2]
  unfold nms
  rw [hsort]
  constructor
  · intro hiou
    rw [nmsLoop]
    have hfb : decide (iou a b < NMS_IOU_THRESHOLD) = false :=
      decide_eq_false_iff_not.mpr (not_lt_of_le hiou)
    simp [List.filter_cons, hfb, nmsLoop]
  · intro hiou
    rw [nmsLoop]
    have hfb : decide (iou a b < NMS_IOU_THRESHOLD) = true :=
      decide_eq_true hiou
    simp [List.filter_cons, hfb, nmsLoop]

/-- Witness for C8: two boxes of distinct confidence occupying the same
pixels (IoU 1 ≥ 0.45): only the higher-confidence one survives. -/
theorem nms_pair_witness :
    nms [⟨0, 0, 10, 10, 9/10⟩, ⟨0, 0, 10, 10, 8/10⟩] NMS_IOU_THRESHOLD
      = [⟨0, 0, 10, 10, 9/10⟩] := by
  have h := nms_pair ⟨0, 0, 10, 10, 9/10⟩ ⟨0, 0, 10, 10, 8/10⟩
    (by norm_num)
    [⟨0, 0, 10, 10, 9/10⟩, ⟨0, 0, 10, 10, 8/10⟩] (Or.inl rfl)
  exact h.1 (by norm_num [iou, FaceResult.area, NMS_IOU_THRESHOLD])

/-- Non-increasing confidence (the order of an NMS output). -/
def confGe (a b : FaceResult) : Prop := b.conf ≤ a.conf

/-- Area descending with confidence as the tie-break: the order claimed
for `parseOutput`'s result. -/
def areaConfOrder (a b : FaceResult) : Prop :=
  b.area < a.area ∨ (a.area = b.area ∧ b.conf ≤ a.conf)

lemma areaConfOrder_area_le {a b : FaceResult} (h : areaConfOrder a b) :
    b.area ≤ a.area := by
  rcases h with h | h
  · exact le_of_lt h
  · exact le_of_eq h.1.symm

lemma insertStable_mem (lt : FaceResult → FaceResult → Bool) (x z : FaceResult) :
    ∀ l : List FaceResult, z ∈ insertStable lt x l ↔ z = x ∨ z ∈ l := by
  intro l
  induction l with
  | nil => simp [insertStable]
  | cons y ys ih =>
      unfold insertStable
      by_cases h : lt x y = true
      · rw [if_pos h]
        simp
      · rw [if_neg h]
        simp only [List.mem_cons, ih]
        tauto

lemma insertStable_conf_pairwise (x : FaceResult) (l : List FaceResult)
    (h : l.Pairwise confGe) : (insertStable confLt x l).Pairwise confGe := by
  induction l with
  | nil => simp [insertStable]
  | cons y ys ih =>
      rcases List.pairwise_cons.mp h with ⟨hy, hys⟩
      unfold insertStable
      by_cases hlt : confLt x y = true
      · rw [if_pos hlt]
        have hxy : y.conf < x.conf := by
          unfold confLt at hlt
          exact of_decide_eq_true hlt
        refine List.pairwise_cons.mpr ⟨?_, h⟩
        intro z hz
        rcases List.mem_cons.mp hz with rfl | hz2
        · exact le_of_lt hxy
        · exact le_trans (hy z hz2) (le_of_lt hxy)
      · rw [if_neg hlt]
        have hyx : x.conf ≤ y.conf := by
          unfold confLt at hlt
          exact le_of_not_lt (of_decide_eq_false (Bool.not_eq_true _ ▸ hlt))
        refine List.pairwise_cons.mpr ⟨?_, ih hys⟩
        intro z hz
        rcases (insertStable_mem confLt x z ys).mp hz with rfl | hz2
        · exact hyx
        · exact hy z hz2

lemma sortStable_conf_pairwise (l : List FaceResult) :
    (sortStable confLt l).Pairwise confGe := by
  suffices h : ∀ acc : List FaceResult, acc.Pairwise confGe →
      (l.foldl (fun acc x => insertStable confLt x acc) acc).Pairwise confGe by
    exact h [] (by simp)
  induction l with
  | nil => intro acc hacc; simpa using hacc
  | cons x xs ih =>
      intro acc hacc
      rw [List.foldl_cons]
      exact ih _ (insertStable_conf_pairwise x acc hacc)

lemma nmsLoop_subset (thr : ℚ) :
    ∀ (n : Nat) (l : List FaceResult), l.length ≤ n →
      ∀ z ∈ nmsLoop thr l, z ∈ l := by
  intro n
  induction n with
  | zero =>
      intro l hl z hz
      have : l = [] := List.length_eq_zero.mp (Nat.le_zero.mp hl)
      subst this
      simp [nmsLoop] at hz
  | succ n ih =>
      intro l hl z hz
      match l with
      | [] => simp [nmsLoop] at hz
      | best :: rest =>
          rw [nmsLoop] at hz
          rcases List.mem_cons.mp hz with rfl | hz2
          · exact List.mem_cons_self _ _
          · have hlen : (rest.filter
                (fun f => decide (iou best f < thr))).length ≤ n :=
              le_trans (List.length_filter_le _ _)
                (Nat.le_of_succ_le_succ (by simpa using hl))
            have hzr := ih _ hlen z hz2
            exact List.mem_cons_of_mem _ (List.mem_of_mem_filter hzr)

lemma nmsLoop_conf_pairwise (thr : ℚ) :
    ∀ (n : Nat) (l : List FaceResult), l.length ≤ n →
      l.Pairwise confGe → (nmsLoop thr l).Pairwise confGe := by
  intro n
  induction n with
  | zero =>
      intro l hl _
      have : l = [] := List.length_eq_zero.mp (Nat.le_zero.mp hl)
      subst this
      simp [nmsLoop]
  | succ n ih =>
      intro l hl hp
      match l with
      | [] => simp [nmsLoop]
      | best :: rest =>
          rcases List.pairwise_cons.mp hp with ⟨hbest, hrest⟩
          rw [nmsLoop]
          have hlen : (rest.filter
              (fun f => decide (iou best f < thr))).length ≤ n :=
            le_trans (List.length_filter_le _ _)
              (Nat.le_of_succ_le_succ (by simpa using hl))
          refine List.pairwise_cons.mpr ⟨?_, ih _ hlen
            (List.Pairwise.sublist (List.filter_sublist _) hrest)⟩
          intro z hz
          have hzr := nmsLoop_subset thr n _ hlen z hz
          exact hbest z (List.mem_of_mem_filter hzr)

lemma insertStable_area_pairwise (x : FaceResult) (l : List FaceResult)
    (hl : l.Pairwise areaConfOrder) (hconf : ∀ y ∈ l, x.conf ≤ y.conf) :
    (insertStable areaLt x l).Pairwise areaConfOrder := by
  induction l with
  | nil => simp [insertStable]
  | cons y ys ih =>
      rcases List.pairwise_cons.mp hl with ⟨hy, hys⟩
      unfold insertStable
      by_cases hlt : areaLt x y = true
      · rw [if_pos hlt]
        have hxy : y.area < x.area := by
          unfold areaLt at hlt
          exact of_decide_eq_true hlt
        refine List.pairwise_cons.mpr ⟨?_, hl⟩
        intro z hz
        rcases List.mem_cons.mp hz with rfl | hz2
        · exact Or.inl hxy
        · exact Or.inl (lt_of_le_of_lt (areaConfOrder_area_le (hy z hz2)) hxy)
      · rw [if_neg hlt]
        have hyx : x.area ≤ y.area := by
          unfold areaLt at hlt
          exact le_of_not_lt (of_decide_eq_false (Bool.not_eq_true _ ▸ hlt))
        refine List.pairwise_cons.mpr ⟨?_, ih hys
          (fun z hz => hconf z (List.mem_cons_of_mem y hz))⟩
        intro z hz
        rcases (insertStable_mem areaLt x z ys).mp hz with rfl | hz2
        · rcases lt_or_eq_of_le hyx with h2 | h2
          · exact Or.inl h2
          · exact Or.inr ⟨h2.symm, hconf y (List.mem_cons_self y ys)⟩
        · exact hy z hz2

lemma sortStable_area_aux :
    ∀ (l acc : List FaceResult), l.Pairwise confGe →
      acc.Pairwise areaConfOrder →
      (∀ y ∈ acc, ∀ x ∈ l, x.conf ≤ y.conf) →
      (l.foldl (fun acc x => insertStable areaLt x acc) acc).Pairwise
        areaConfOrder := by
  intro l
  induction l with
  | nil =>
      intro acc _ h1 _
      simpa using h1
  | cons x xs ih =>
      intro acc hp h1 h2
      rw [List.foldl_cons]
      rcases List.pairwise_cons.mp hp with ⟨hx, hxs⟩
      refine ih _ hxs ?_ ?_
      · exact insertStable_area_pairwise x acc h1
          (fun y hy => h2 y hy x (List.mem_cons_self x xs))
      · intro y hy z hz
        rcases (insertStable_mem areaLt x y acc).mp hy with rfl | hy2
        · exact hx z hz
        · exact h2 y hy2 z (List.mem_cons_of_mem x hz)

/-- **C9.** The face list returned by `parseOutput` is sorted by area
descending with ties in area broken by confidence (descending), so the
first element is always a largest-area face. -/
theorem parseOutput_sorted_by_area (raw : List RawBox) (origW origH : Int)
    (lb : LetterboxResult) :
    (parseOutput raw origW origH lb).Pairwise areaConfOrder ∧
    (∀ first rest2, parseOutput raw origW origH lb = first :: rest2 →
      ∀ f ∈ rest2, f.area ≤ first.area) := by
  have hconf : (nms (raw.filterMap (parseBox origW origH lb))
      NMS_IOU_THRESHOLD).Pairwise confGe := by
    unfold nms
    exact nmsLoop_conf_pairwise NMS_IOU_THRESHOLD _ _ le_rfl
      (sortStable_conf_pairwise _)
  have hmain : (parseOutput raw origW origH lb).Pairwise areaConfOrder := by
    unfold parseOutput
    exact sortStable_area_aux _ [] hconf (by simp) (by simp)
  refine ⟨hmain, ?_⟩
  intro first rest2 heq f hf
  rw [heq] at hmain
  exact areaConfOrder_area_le ((List.pairwise_cons.mp hmain).1 f hf)

/-- Witness for C9: two detections that survive to the output; the
second-listed face has area at most the first's, by the sortedness
theorem applied to the computed output. -/
theorem parseOutput_sorted_by_area_witness :
    parseOutput
        [⟨5/96, 5/96, 100/960, 100/960, 1/2⟩, ⟨5/8, 5/8, 5/24, 5/24, 9/10⟩]
        960 960 ⟨1, 0, 0⟩
      = [⟨500, 500, 200, 200, 9/10⟩, ⟨0, 0, 100, 100, 1/2⟩] ∧
    FaceResult.area ⟨0, 0, 100, 100, 1/2⟩
      ≤ FaceResult.area ⟨500, 500, 200, 200, 9/10⟩ := by
  have heq : parseOutput
      [⟨5/96, 5/96, 100/960, 100/960, 1/2⟩, ⟨5/8, 5/8, 5/24, 5/24, 9/10⟩]
      960 960 ⟨1, 0, 0⟩
      = [⟨500, 500, 200, 200, 9/10⟩, ⟨0, 0, 100, 100, 1/2⟩] := by
    norm_num [parseOutput, parseBox, nms, nmsLoop, sortStable, insertStable,
      confLt, areaLt, iou, jround, INPUT_SIZE, CONF_THRESHOLD, MIN_BOX_SIZE,
      NMS_IOU_THRESHOLD, FaceResult.area, List.filterMap_cons, List.filter_cons]
  refine ⟨heq, ?_⟩
  exact (parseOutput_sorted_by_area
      [⟨5/96, 5/96, 100/960, 100/960, 1/2⟩, ⟨5/8, 5/8, 5/24, 5/24, 9/10⟩]
      960 960 ⟨1, 0, 0⟩).2 _ _ heq _ (List.mem_singleton.mpr rfl)

end FaceAttendance
